import Mathlib

/-!
Verification of the in-memory prefix-search core (trie + tokenizer) of the
content-search repository.

The definitions below are a shallow embedding of the C++ sources:

* `src/trie.cpp` / the `Trie`/`TrieNode` classes declared in `mkindex.cpp`
  (lines 680-780): `TrieNode::children` is a `std::map<char32_t, TrieNode*>`,
  modelled as a strictly-key-sorted association list (`ChildMap`); codepoints
  (`char32_t`) are modelled as `Nat`.
* `Trie::insert`, `Trie::search`, `Trie::startsWith`,
  `Trie::collectSuggestions` and `Trie::DFSCollector` (trie.cpp lines 30-138)
  become `insertW`, `searchW`, `startsWithW`, `collectSuggestionsT` /
  `collectList` and `DFSCollector`/`dfsChildren`.
* the vocabulary tokenizer `vocabulary` of `mkindex.cpp` (lines 170-194)
  becomes `vocabScan`; the startup loader loop of
  `HttpRequestHandler::loadVocabularyIntoTrie` (HttpRequestHandler.cpp lines
  89-117) becomes `loaderScan`; the vocabulary serialisation loop of
  `vocabularyDatabase` (mkindex.cpp lines 519-525) becomes `serializeVocab`.
* the ICU character predicates `u_isalpha` / `u_tolower` are modelled on the
  ASCII range (`isAlpha`, `toLower`); the spec documents the
  "alphabetic test + simple lowercase fold" as the intended simplification,
  and every concrete scenario of the spec stays in ASCII.

State threading: the C++ `collectSuggestions` writes into the member field
`Trie::collectWords` and returns only a count; `collectSuggestionsT` makes
that explicit by returning the updated `Trie` record together with the count.
-/

/-- ASCII model of ICU `u_tolower`: maps A-Z (65-90) to a-z, leaves every
other codepoint unchanged. -/
def toLower (c : Nat) : Nat := if 65 ≤ c ∧ c ≤ 90 then c + 32 else c

/-- ASCII model of ICU `u_isalpha`: true exactly on A-Z (65-90) and
a-z (97-122). -/
def isAlpha (c : Nat) : Bool := (65 ≤ c && c ≤ 90) || (97 ≤ c && c ≤ 122)

mutual
/-- A trie node: the `isEndOfWord` flag and the child map
(`TrieNode` of trie.cpp / mkindex.cpp line 723-724). -/
inductive TrieNode : Type where
  | mk : Bool → ChildMap → TrieNode
/-- The `std::map<char32_t, TrieNode*> children` member, as an association
list kept in strictly ascending key order (the `std::map` iteration order). -/
inductive ChildMap : Type where
  | nil : ChildMap
  | cons : Nat → TrieNode → ChildMap → ChildMap
end

/-- The `isEndOfWord` flag of a node. -/
def TrieNode.isEnd : TrieNode → Bool
  | .mk e _ => e

/-- The `children` map of a node. -/
def TrieNode.children : TrieNode → ChildMap
  | .mk _ cs => cs

/-- `std::map::find`: first (and for sorted maps only) binding of key `c`. -/
def ChildMap.find : ChildMap → Nat → Option TrieNode
  | .nil, _ => none
  | .cons k v rest, c => if c = k then some v else rest.find c

/-- `TrieNode::retrieveChild` (trie.cpp lines 12-19). -/
def retrieveChild (n : TrieNode) (c : Nat) : Option TrieNode :=
  n.children.find c

/-- `TrieNode::insertCharacter` (trie.cpp lines 21-28): `children[c] = new
TrieNode()` when the key is absent, keeping the map sorted; no change when the
key is present. -/
def ChildMap.insertNew : ChildMap → Nat → ChildMap
  | .nil, c => .cons c (.mk false .nil) .nil
  | .cons k v rest, c =>
    if c < k then .cons c (.mk false .nil) (.cons k v rest)
    else if c = k then .cons k v rest
    else .cons k v (rest.insertNew c)

/-- Replace the binding of key `c` (models the mutation of the child the C++
insertion loop walks into). -/
def ChildMap.replace : ChildMap → Nat → TrieNode → ChildMap
  | .nil, _, _ => .nil
  | .cons k v rest, c, n => if c = k then .cons c n rest else .cons k v (rest.replace c n)

/-- `Trie::insert` (trie.cpp lines 30-39): walk the word, creating each
missing child on the way, then set the terminal node's `isEndOfWord`. The
imperative pointer walk is expressed as a functional rebuild of the path. -/
def insertW : TrieNode → List Nat → TrieNode
  | n, [] => .mk true n.children
  | n, c :: rest =>
    let cs := n.children.insertNew c
    let child := match cs.find c with
      | some ch => ch
      | none => .mk false .nil
    .mk n.isEnd (cs.replace c (insertW child rest))

/-- `Trie::search` (trie.cpp lines 47-58): follow the raw codepoints; true iff
the full path exists and ends at a node with `isEndOfWord` set. -/
def searchW : TrieNode → List Nat → Bool
  | n, [] => n.isEnd
  | n, c :: rest =>
    match retrieveChild n c with
    | some child => searchW child rest
    | none => false

/-- `Trie::startsWith` (trie.cpp lines 66-77): true iff the full raw path
exists, regardless of the terminal flag. -/
def startsWithW : TrieNode → List Nat → Bool
  | _, [] => true
  | n, c :: rest =>
    match retrieveChild n c with
    | some child => startsWithW child rest
    | none => false

/-- The descent loop of `Trie::collectSuggestions` (trie.cpp lines 93-100):
follow the raw codepoints of the query and return the node reached, `none`
when a child is missing (the C++ code guards this with `startsWith`). -/
def descend : TrieNode → List Nat → Option TrieNode
  | n, [] => some n
  | n, c :: rest =>
    match retrieveChild n c with
    | some child => descend child rest
    | none => none

mutual
/-- `Trie::DFSCollector` (trie.cpp lines 114-138): return immediately when the
budget is zero; if the node is an end of word, append `currentWord` to the
collected list and decrement the budget; then traverse the children in map
order, appending `u_tolower` of the child key to `currentWord` before
recursing. Result: the collected list and the remaining budget. -/
def DFSCollector : TrieNode → List Nat → Nat → List (List Nat) → List (List Nat) × Nat
  | .mk e cs, w, b, acc =>
    if b = 0 then (acc, b)
    else
      let pr := if e then (acc ++ [w], b - 1) else (acc, b)
      dfsChildren cs w pr.2 pr.1
/-- The child loop of `Trie::DFSCollector` (trie.cpp lines 127-137), with the
early return once the budget reaches zero. -/
def dfsChildren : ChildMap → List Nat → Nat → List (List Nat) → List (List Nat) × Nat
  | .nil, _, b, acc => (acc, b)
  | .cons c ch rest, w, b, acc =>
    let q := DFSCollector ch (w ++ [toLower c]) b acc
    if q.2 = 0 then (q.1, 0) else dfsChildren rest w q.2 q.1
end

/-- The suggestion list computed by `Trie::collectSuggestions` (trie.cpp lines
85-106): empty when `startsWith` fails on the raw query or when the budget is
zero; otherwise descend along the raw query codepoints and run the DFS with
`currentPrefix` built as `u_tolower` of each query codepoint. -/
def collectList (root : TrieNode) (p : List Nat) (maxS : Nat) : List (List Nat) :=
  if !startsWithW root p || maxS == 0 then []
  else
    match descend root p with
    | some n => (DFSCollector n (p.map toLower) maxS []).1
    | none => []

/-- The `Trie` object: the root node and the member buffer
`std::vector<std::u32string> collectWords` (mkindex.cpp line 773) that
`collectSuggestions` writes its results into. -/
structure Trie where
  root : TrieNode
  collectWords : List (List Nat)

/-- `Trie::collectSuggestions` (trie.cpp lines 85-106) as a state transformer:
the member `collectWords` is cleared first, then filled by the DFS; the
returned number is `collectWords.size()`. -/
def collectSuggestionsT (t : Trie) (p : List Nat) (maxS : Nat) : Trie × Nat :=
  if !startsWithW t.root p || maxS == 0 then ({ root := t.root, collectWords := [] }, 0)
  else
    match descend t.root p with
    | some n =>
      let ws := (DFSCollector n (p.map toLower) maxS []).1
      ({ root := t.root, collectWords := ws }, ws.length)
    | none => ({ root := t.root, collectWords := [] }, 0)

/-- The C++ conversion applied when an `int` argument is passed to the
`size_t maxSuggestions` parameter (mkindex.cpp line 769): reduction modulo
`2 ^ 64`. -/
def intToSizeT (i : Int) : Nat := (i.emod (2 ^ 64)).toNat

/-- `collectSuggestions` reached through the `size_t` parameter with an `int`
argument: the limit undergoes the unsigned conversion `intToSizeT`. -/
def collectListInt (root : TrieNode) (p : List Nat) (i : Int) : List (List Nat) :=
  collectList root p (intToSizeT i)

/-- A freshly constructed `TrieNode()`: no children, flag false. -/
def emptyNode : TrieNode := .mk false .nil

/-- A trie built by a finite sequence of `insert` calls starting from the
fresh root of `Trie::Trie()`. -/
def buildTrie (ws : List (List Nat)) : TrieNode := ws.foldl insertW emptyNode

/-- The tokenizer loop of `vocabulary` in mkindex.cpp (lines 177-192):
alphabetic codepoints are lowercased into the accumulator; on a
non-alphabetic codepoint the accumulator is emitted when its length is at
least 5 and cleared in every case; the final pending accumulator is flushed
under the same length rule. The result is the emission sequence, in order. -/
def vocabScan : List Nat → List Nat → List (List Nat)
  | [], word => if 5 ≤ word.length then [word] else []
  | c :: rest, word =>
    if isAlpha c then vocabScan rest (word ++ [toLower c])
    else if 5 ≤ word.length then word :: vocabScan rest []
    else vocabScan rest []

/-- The tokenizer loop of `HttpRequestHandler::loadVocabularyIntoTrie`
(HttpRequestHandler.cpp lines 95-115). It differs from `vocabScan` in one
point faithful to the source: on a non-alphabetic codepoint with a short
accumulator (length below 5) there is no `word.clear()`, so the accumulator
is kept. The result is the sequence of words the loop feeds to
`trie->insert`, in order. -/
def loaderScan : List Nat → List Nat → List (List Nat)
  | [], word => if 5 ≤ word.length then [word] else []
  | c :: rest, word =>
    if isAlpha c then loaderScan rest (word ++ [toLower c])
    else if 5 ≤ word.length then word :: loaderScan rest []
    else loaderScan rest word

/-- The serialisation loop of `vocabularyDatabase` (mkindex.cpp lines
519-523): `vocabString += w + " "` for each word of the vocabulary set in
iteration order, so every word is followed by one space (codepoint 32). -/
def serializeVocab : List (List Nat) → List Nat
  | [] => []
  | w :: rest => w ++ 32 :: serializeVocab rest

/-- A Word as produced by the tokenizer with threshold 5: length at least 5,
every codepoint alphabetic and fixed by the lowercase fold. -/
def validWord (w : List Nat) : Bool :=
  decide (5 ≤ w.length) && w.all (fun c => isAlpha c && (toLower c == c))

/-- Strict lexicographic comparison of codepoint sequences (ascending
codepoint order; the empty sequence precedes every nonempty one). -/
def lexLt : List Nat → List Nat → Bool
  | [], [] => false
  | [], _ :: _ => true
  | _ :: _, [] => false
  | a :: as, b :: bs => if a < b then true else if a = b then lexLt as bs else false

/-- Is the first key of the map (if any) above `k`? -/
def headKeyLt (k : Nat) : ChildMap → Bool
  | .nil => true
  | .cons k2 _ _ => decide (k < k2)

mutual
/-- The `std::map` representation invariant, recursively: every child map is
in strictly ascending key order (hence keys are unique). -/
def nodeSorted : TrieNode → Bool
  | .mk _ cs => childSorted cs
/-- Strict ascending key order of one child map, and recursively of all the
subtrees hanging from it. -/
def childSorted : ChildMap → Bool
  | .nil => true
  | .cons k v rest => headKeyLt k rest && nodeSorted v && childSorted rest
end

mutual
/-- All edge keys of the tree are fixed points of the lowercase fold: the
shape a trie has when only lowercase Words were inserted. -/
def nodeLower : TrieNode → Bool
  | .mk _ cs => childLower cs
/-- `nodeLower`, child-map side. -/
def childLower : ChildMap → Bool
  | .nil => true
  | .cons k v rest => (toLower k == k) && nodeLower v && childLower rest
end

/-- The keys of a child map, in map order. -/
def keysList : ChildMap → List Nat
  | .nil => []
  | .cons k _ rest => k :: keysList rest

/-- Codepoints of "apple". -/
def appleW : List Nat := [97, 112, 112, 108, 101]

/-- Codepoints of "application". -/
def applicationW : List Nat := [97, 112, 112, 108, 105, 99, 97, 116, 105, 111, 110]

/-- Codepoints of "apply". -/
def applyW : List Nat := [97, 112, 112, 108, 121]

/-- Codepoints of "banana". -/
def bananaW : List Nat := [98, 97, 110, 97, 110, 97]

/-- Codepoints of "app". -/
def appW : List Nat := [97, 112, 112]

/-- Codepoints of "APP". -/
def appUpperW : List Nat := [65, 80, 80]

/-- The trie of spec scenario 1: {"apple", "application", "apply", "banana"}. -/
def demoRoot : TrieNode := buildTrie [appleW, applicationW, applyW, bananaW]

/-- A trie holding only the word "AB" (codepoints 65, 66), inserted directly,
bypassing the tokenizer. -/
def trieAB : TrieNode := buildTrie [[65, 66]]

/-- A trie holding the words "xB" and "xa": the child keys 66 and 97 under
the node of 120 are map-sorted, but their lowercase folds 98 and 97 are not. -/
def trieXC : TrieNode := buildTrie [[120, 66], [120, 97]]

/-- Codepoints of "The quick-brown Fox123 jumps!!". -/
def exampleText : List Nat :=
  [84, 104, 101, 32, 113, 117, 105, 99, 107, 45, 98, 114, 111, 119, 110, 32,
   70, 111, 120, 49, 50, 51, 32, 106, 117, 109, 112, 115, 33, 33]

/-- Codepoints of "quick". -/
def quickW : List Nat := [113, 117, 105, 99, 107]

/-- Codepoints of "brown". -/
def brownW : List Nat := [98, 114, 111, 119, 110]

/-- Codepoints of "jumps". -/
def jumpsW : List Nat := [106, 117, 109, 112, 115]

/-- Codepoints of "abc defgh". -/
def abcSpaceText : List Nat := [97, 98, 99, 32, 100, 101, 102, 103, 104]

/-- Codepoints of "defgh". -/
def defghW : List Nat := [100, 101, 102, 103, 104]

/-- Codepoints of "abcdefgh". -/
def abcdefghW : List Nat := [97, 98, 99, 100, 101, 102, 103, 104]

/-- The trie of {"app", "apple", "apply"}: "app" itself is a stored word. -/
def trieApp : TrieNode := buildTrie [appW, appleW, applyW]

/-! ### Basic facts about the codepoint model -/

theorem toLower_idem (c : Nat) : toLower (toLower c) = toLower c := by
  unfold toLower
  by_cases h : 65 ≤ c ∧ c ≤ 90
  · have h2 : ¬(65 ≤ c + 32 ∧ c + 32 ≤ 90) := by omega
    simp only [if_pos h, if_neg h2]
  · simp only [if_neg h]

/-! ### Facts about lexicographic comparison -/

theorem lexLt_append_same (w a b : List Nat) : lexLt (w ++ a) (w ++ b) = lexLt a b := by
  induction w with
  | nil => rfl
  | cons c w ih => simp [lexLt, ih]

theorem lexLt_cons_of_lt {a b : Nat} (h : a < b) (u v : List Nat) :
    lexLt (a :: u) (b :: v) = true := by
  simp [lexLt, h]

theorem lexLt_self_append_cons (w : List Nat) (c : Nat) (u : List Nat) :
    lexLt w (w ++ c :: u) = true := by
  have h := lexLt_append_same w [] (c :: u)
  simpa using h

theorem lexLt_append_cons_lt {c d : Nat} (h : c < d) (w u v : List Nat) :
    lexLt (w ++ c :: u) (w ++ d :: v) = true := by
  rw [lexLt_append_same]
  exact lexLt_cons_of_lt h u v

theorem isPrefixOf_self_append (p s : List Nat) : p.isPrefixOf (p ++ s) = true := by
  induction p with
  | nil => simp [List.isPrefixOf]
  | cons c p ih => simp [List.isPrefixOf, ih]

/-! ### Facts about child maps -/

theorem find_mem_keys (cs : ChildMap) (c : Nat) (ch : TrieNode)
    (h : cs.find c = some ch) : c ∈ keysList cs := by
  cases cs with
  | nil => simp [ChildMap.find] at h
  | cons k v rest =>
    by_cases hc : c = k
    · simp [keysList, hc]
    · simp only [ChildMap.find, if_neg hc] at h
      exact List.mem_cons_of_mem _ (find_mem_keys rest c ch h)

theorem childSorted_cons_parts (k : Nat) (v : TrieNode) (rest : ChildMap)
    (h : childSorted (.cons k v rest) = true) :
    headKeyLt k rest = true ∧ nodeSorted v = true ∧ childSorted rest = true := by
  have h2 : (headKeyLt k rest && nodeSorted v && childSorted rest) = true := h
  simp only [Bool.and_eq_true] at h2
  exact ⟨h2.1.1, h2.1.2, h2.2⟩

theorem sorted_head_lt (k : Nat) (v : TrieNode) (rest : ChildMap)
    (h : childSorted (.cons k v rest) = true) : ∀ k2 ∈ keysList rest, k < k2 := by
  cases rest with
  | nil => simp [keysList]
  | cons k2 v2 r2 =>
    rcases childSorted_cons_parts k v (.cons k2 v2 r2) h with ⟨hk, _, hrest⟩
    have hk2 : k < k2 := by simpa [headKeyLt] using hk
    intro k3 h3
    rcases List.mem_cons.mp h3 with h3 | h3
    · omega
    · exact Nat.lt_trans hk2 (sorted_head_lt k2 v2 r2 hrest k3 h3)

theorem childLower_cons_parts (k : Nat) (v : TrieNode) (rest : ChildMap)
    (h : childLower (.cons k v rest) = true) :
    toLower k = k ∧ nodeLower v = true ∧ childLower rest = true := by
  simp only [childLower, Bool.and_eq_true, beq_iff_eq] at h
  exact ⟨h.1.1, h.1.2, h.2⟩

theorem find_sorted (cs : ChildMap) (c : Nat) (ch : TrieNode)
    (hs : childSorted cs = true) (h : cs.find c = some ch) : nodeSorted ch = true := by
  cases cs with
  | nil => simp [ChildMap.find] at h
  | cons k v rest =>
    rcases childSorted_cons_parts k v rest hs with ⟨_, hv, hrest⟩
    by_cases hc : c = k
    · simp only [ChildMap.find, if_pos hc] at h
      cases h
      exact hv
    · simp only [ChildMap.find, if_neg hc] at h
      exact find_sorted rest c ch hrest h

theorem find_lower (cs : ChildMap) (c : Nat) (ch : TrieNode)
    (hl : childLower cs = true) (h : cs.find c = some ch) :
    toLower c = c ∧ nodeLower ch = true := by
  cases cs with
  | nil => simp [ChildMap.find] at h
  | cons k v rest =>
    rcases childLower_cons_parts k v rest hl with ⟨hk, hv, hrest⟩
    by_cases hc : c = k
    · simp only [ChildMap.find, if_pos hc] at h
      cases h
      exact ⟨hc ▸ hk, hv⟩
    · simp only [ChildMap.find, if_neg hc] at h
      exact find_lower rest c ch hrest h

/-! ### Insertion lemmas -/

theorem headKeyLt_insertNew (k c : Nat) (cs : ChildMap)
    (h1 : headKeyLt k cs = true) (h2 : k < c) : headKeyLt k (cs.insertNew c) = true := by
  cases cs with
  | nil => simpa [ChildMap.insertNew, headKeyLt] using h2
  | cons k2 v r =>
    by_cases hck : c < k2
    · simpa [ChildMap.insertNew, if_pos hck, headKeyLt] using h2
    · by_cases hek : c = k2
      · simpa [ChildMap.insertNew, if_neg hck, if_pos hek, headKeyLt] using h1
      · simpa [ChildMap.insertNew, if_neg hck, if_neg hek, headKeyLt] using h1

theorem insertNew_sorted (cs : ChildMap) (c : Nat)
    (hs : childSorted cs = true) : childSorted (cs.insertNew c) = true := by
  cases cs with
  | nil => simp [ChildMap.insertNew, childSorted, nodeSorted, headKeyLt]
  | cons k v r =>
    rcases childSorted_cons_parts k v r hs with ⟨hk, hv, hr⟩
    by_cases hck : c < k
    · simp only [ChildMap.insertNew, if_pos hck, childSorted, Bool.and_eq_true]
      refine ⟨⟨?_, ?_⟩, ⟨⟨hk, hv⟩, hr⟩⟩
      · simpa [headKeyLt] using hck
      · simp [nodeSorted, childSorted]
    · by_cases hek : c = k
      · simpa [ChildMap.insertNew, if_neg hck, if_pos hek] using hs
      · have hkc : k < c := by omega
        simp only [ChildMap.insertNew, if_neg hck, if_neg hek, childSorted, Bool.and_eq_true]
        exact ⟨⟨headKeyLt_insertNew k c r hk hkc, hv⟩, insertNew_sorted r c hr⟩

theorem keysList_replace (cs : ChildMap) (c : Nat) (n : TrieNode) :
    keysList (cs.replace c n) = keysList cs := by
  cases cs with
  | nil => rfl
  | cons k v r =>
    by_cases hck : c = k
    · simp [ChildMap.replace, if_pos hck, keysList, hck]
    · simp [ChildMap.replace, if_neg hck, keysList, keysList_replace r c n]

theorem headKeyLt_congr (k : Nat) (m1 m2 : ChildMap)
    (h : keysList m1 = keysList m2) : headKeyLt k m1 = headKeyLt k m2 := by
  cases m1 with
  | nil =>
    cases m2 with
    | nil => rfl
    | cons k2 v2 r2 => simp [keysList] at h
  | cons k1 v1 r1 =>
    cases m2 with
    | nil => simp [keysList] at h
    | cons k2 v2 r2 =>
      simp only [keysList, List.cons.injEq] at h
      simp [headKeyLt, h.1]

theorem replace_sorted (cs : ChildMap) (c : Nat) (n : TrieNode)
    (hs : childSorted cs = true) (hn : nodeSorted n = true) :
    childSorted (cs.replace c n) = true := by
  cases cs with
  | nil => simpa [ChildMap.replace] using hs
  | cons k v r =>
    rcases childSorted_cons_parts k v r hs with ⟨hk, hv, hr⟩
    by_cases hck : c = k
    · simp only [ChildMap.replace, if_pos hck, childSorted, Bool.and_eq_true]
      exact ⟨⟨hck ▸ hk, hn⟩, hr⟩
    · simp only [ChildMap.replace, if_neg hck, childSorted, Bool.and_eq_true]
      refine ⟨⟨?_, hv⟩, replace_sorted r c n hr hn⟩
      rw [headKeyLt_congr k _ r (keysList_replace r c n)]
      exact hk

theorem insertNew_find_some (cs : ChildMap) (c : Nat) (ch : TrieNode)
    (hs : childSorted cs = true) (h : cs.find c = some ch) :
    (cs.insertNew c).find c = some ch := by
  cases cs with
  | nil => simp [ChildMap.find] at h
  | cons k v r =>
    by_cases hek : c = k
    · simp only [ChildMap.find, if_pos hek] at h
      have hck : ¬c < k := by omega
      simp [ChildMap.insertNew, if_neg hck, if_pos hek, ChildMap.find, hek, h]
    · simp only [ChildMap.find, if_neg hek] at h
      by_cases hck : c < k
      · exfalso
        have hmem := find_mem_keys r c ch h
        have := sorted_head_lt k v r hs c hmem
        omega
      · rcases childSorted_cons_parts k v r hs with ⟨_, _, hr⟩
        simp only [ChildMap.insertNew, if_neg hck, if_neg hek, ChildMap.find]
        simp [if_neg hek, insertNew_find_some r c ch hr h]

theorem insertNew_find_none (cs : ChildMap) (c : Nat)
    (h : cs.find c = none) : (cs.insertNew c).find c = some (.mk false .nil) := by
  cases cs with
  | nil => simp [ChildMap.insertNew, ChildMap.find]
  | cons k v r =>
    by_cases hek : c = k
    · simp [ChildMap.find, if_pos hek] at h
    · simp only [ChildMap.find, if_neg hek] at h
      by_cases hck : c < k
      · simp [ChildMap.insertNew, if_pos hck, ChildMap.find]
      · simp [ChildMap.insertNew, if_neg hck, if_neg hek, ChildMap.find,
          insertNew_find_none r c h]

theorem find_replace_self (cs : ChildMap) (c : Nat) (n ch : TrieNode)
    (h : cs.find c = some ch) : (cs.replace c n).find c = some n := by
  cases cs with
  | nil => simp [ChildMap.find] at h
  | cons k v r =>
    by_cases hek : c = k
    · simp [ChildMap.replace, if_pos hek, ChildMap.find]
    · simp only [ChildMap.find, if_neg hek] at h
      simp [ChildMap.replace, if_neg hek, ChildMap.find, if_neg hek,
        find_replace_self r c n ch h]

theorem find_replace_ne (cs : ChildMap) (c c2 : Nat) (n : TrieNode)
    (h : c2 ≠ c) : (cs.replace c n).find c2 = cs.find c2 := by
  cases cs with
  | nil => rfl
  | cons k v r =>
    by_cases hek : c = k
    · subst hek
      simp [ChildMap.replace, ChildMap.find, if_neg h]
    · by_cases h2k : c2 = k
      · simp [ChildMap.replace, if_neg hek, ChildMap.find, if_pos h2k]
      · simp [ChildMap.replace, if_neg hek, ChildMap.find, if_neg h2k,
          find_replace_ne r c c2 n h]

theorem find_insertNew_ne (cs : ChildMap) (c c2 : Nat)
    (h : c2 ≠ c) : (cs.insertNew c).find c2 = cs.find c2 := by
  cases cs with
  | nil => simp [ChildMap.insertNew, ChildMap.find, if_neg h]
  | cons k v r =>
    by_cases hck : c < k
    · simp [ChildMap.insertNew, if_pos hck, ChildMap.find, if_neg h]
    · by_cases hek : c = k
      · simp [ChildMap.insertNew, if_neg hck, if_pos hek]
      · by_cases h2k : c2 = k
        · simp [ChildMap.insertNew, if_neg hck, if_neg hek, ChildMap.find, if_pos h2k]
        · simp [ChildMap.insertNew, if_neg hck, if_neg hek, ChildMap.find, if_neg h2k,
            find_insertNew_ne r c c2 h]

theorem insertW_sorted (v : List Nat) : ∀ (n : TrieNode), nodeSorted n = true →
    nodeSorted (insertW n v) = true := by
  induction v with
  | nil =>
    intro n hs
    cases n with
    | mk e cs => simpa [insertW, nodeSorted, TrieNode.children] using hs
  | cons a v ih =>
    intro n hs
    cases n with
    | mk e cs =>
      have hcs : childSorted cs = true := hs
      have hins : childSorted (cs.insertNew a) = true := insertNew_sorted cs a hcs
      cases hfind : (cs.insertNew a).find a with
      | some ch =>
        have hch : nodeSorted ch = true := find_sorted _ a ch hins hfind
        have hx : nodeSorted (insertW ch v) = true := ih ch hch
        simp only [insertW, TrieNode.children, TrieNode.isEnd, hfind, nodeSorted]
        exact replace_sorted _ a _ hins hx
      | none =>
        have hx : nodeSorted (insertW (.mk false .nil) v) = true := ih _ (by rfl)
        simp only [insertW, TrieNode.children, TrieNode.isEnd, hfind, nodeSorted]
        exact replace_sorted _ a _ hins hx

theorem searchW_empty (w : List Nat) : searchW (.mk false .nil) w = false := by
  cases w with
  | nil => rfl
  | cons c rest => simp [searchW, retrieveChild, TrieNode.children, ChildMap.find]

theorem search_insert (v : List Nat) : ∀ (n : TrieNode) (w : List Nat), nodeSorted n = true →
    (searchW (insertW n v) w = true ↔ (w = v ∨ searchW n w = true)) := by
  induction v with
  | nil =>
    intro n w hs
    cases n with
    | mk e cs =>
      cases w with
      | nil => simp [insertW, searchW, TrieNode.isEnd, TrieNode.children]
      | cons c w2 =>
        simp [insertW, searchW, TrieNode.isEnd, TrieNode.children, retrieveChild]
  | cons a v ih =>
    intro n w hs
    cases n with
    | mk e cs =>
      have hcs : childSorted cs = true := hs
      have hins : childSorted (cs.insertNew a) = true := insertNew_sorted cs a hcs
      cases w with
      | nil =>
        cases hfind : (cs.insertNew a).find a with
        | some ch => simp [insertW, hfind, searchW, TrieNode.isEnd, TrieNode.children]
        | none => simp [insertW, hfind, searchW, TrieNode.isEnd, TrieNode.children]
      | cons c w2 =>
        by_cases hca : c = a
        · subst hca
          cases hbase : cs.find c with
          | some ch =>
            have hf1 : (cs.insertNew c).find c = some ch := insertNew_find_some cs c ch hcs hbase
            have hf2 : ((cs.insertNew c).replace c (insertW ch v)).find c =
                some (insertW ch v) := find_replace_self _ c _ ch hf1
            have hch : nodeSorted ch = true := find_sorted cs c ch hcs hbase
            simp only [insertW, TrieNode.children, TrieNode.isEnd, hf1,
              searchW, retrieveChild, hf2, hbase]
            rw [ih ch w2 hch]
            simp
          | none =>
            have hf1 : (cs.insertNew c).find c = some (.mk false .nil) :=
              insertNew_find_none cs c hbase
            have hf2 : ((cs.insertNew c).replace c (insertW (.mk false .nil) v)).find c =
                some (insertW (.mk false .nil) v) := find_replace_self _ c _ _ hf1
            simp only [insertW, TrieNode.children, TrieNode.isEnd, hf1,
              searchW, retrieveChild, hf2, hbase]
            rw [ih _ w2 (by rfl)]
            simp [searchW_empty]
        · have hf2 : ∀ X, ((cs.insertNew a).replace a X).find c = cs.find c := by
            intro X
            rw [find_replace_ne _ a c X hca, find_insertNew_ne cs a c hca]
          cases hfind : (cs.insertNew a).find a with
          | some ch =>
            simp only [insertW, TrieNode.children, TrieNode.isEnd, hfind,
              searchW, retrieveChild, hf2]
            have : ¬(c :: w2 = a :: v) := by simp [hca]
            cases hc2 : cs.find c with
            | some ch2 => simp [this]
            | none => simp [this]
          | none =>
            simp only [insertW, TrieNode.children, TrieNode.isEnd, hfind,
              searchW, retrieveChild, hf2]
            have : ¬(c :: w2 = a :: v) := by simp [hca]
            cases hc2 : cs.find c with
            | some ch2 => simp [this]
            | none => simp [this]

theorem search_foldl (ws : List (List Nat)) : ∀ (n : TrieNode) (w : List Nat),
    nodeSorted n = true →
    (searchW (ws.foldl insertW n) w = true ↔ (w ∈ ws ∨ searchW n w = true)) := by
  induction ws with
  | nil => intro n w hs; simp
  | cons v ws ih =>
    intro n w hs
    simp only [List.foldl_cons]
    rw [ih (insertW n v) w (insertW_sorted v n hs), search_insert v n w hs]
    simp only [List.mem_cons]
    tauto

/-! ### DFS traversal lemmas -/

mutual
theorem dfs_append (n : TrieNode) (w : List Nat) (b : Nat) (acc : List (List Nat)) :
    DFSCollector n w b acc =
      (acc ++ (DFSCollector n w b []).1, (DFSCollector n w b []).2) := by
  cases n with
  | mk e cs =>
    by_cases hb : b = 0
    · simp [DFSCollector, hb]
    · cases e with
      | false =>
        simp only [DFSCollector, if_neg hb, Bool.false_eq_true, if_false]
        rw [children_append cs w b acc]
      | true =>
        simp only [DFSCollector, if_neg hb, if_true, List.nil_append]
        rw [children_append cs w (b - 1) (acc ++ [w]), children_append cs w (b - 1) [w]]
        simp

theorem children_append (cs : ChildMap) (w : List Nat) (b : Nat) (acc : List (List Nat)) :
    dfsChildren cs w b acc =
      (acc ++ (dfsChildren cs w b []).1, (dfsChildren cs w b []).2) := by
  cases cs with
  | nil => simp [dfsChildren]
  | cons c ch rest =>
    simp only [dfsChildren]
    rw [dfs_append ch (w ++ [toLower c]) b acc]
    by_cases hz : (DFSCollector ch (w ++ [toLower c]) b []).2 = 0
    · simp [hz]
    · simp only [hz, if_neg hz]
      rw [children_append rest w (DFSCollector ch (w ++ [toLower c]) b []).2
          (acc ++ (DFSCollector ch (w ++ [toLower c]) b []).1),
        children_append rest w (DFSCollector ch (w ++ [toLower c]) b []).2
          (DFSCollector ch (w ++ [toLower c]) b []).1]
      simp
end

mutual
theorem dfs_budget (n : TrieNode) (w : List Nat) (b : Nat) (acc : List (List Nat)) :
    (DFSCollector n w b acc).1.length + (DFSCollector n w b acc).2 = acc.length + b := by
  cases n with
  | mk e cs =>
    by_cases hb : b = 0
    · simp [DFSCollector, hb]
    · cases e with
      | false =>
        simp only [DFSCollector, if_neg hb, Bool.false_eq_true, if_false]
        exact children_budget cs w b acc
      | true =>
        simp only [DFSCollector, if_neg hb, if_true]
        have h := children_budget cs w (b - 1) (acc ++ [w])
        simp only [List.length_append, List.length_cons, List.length_nil] at h
        omega

theorem children_budget (cs : ChildMap) (w : List Nat) (b : Nat) (acc : List (List Nat)) :
    (dfsChildren cs w b acc).1.length + (dfsChildren cs w b acc).2 = acc.length + b := by
  cases cs with
  | nil => simp [dfsChildren]
  | cons c ch rest =>
    simp only [dfsChildren]
    have h1 := dfs_budget ch (w ++ [toLower c]) b acc
    by_cases hz : (DFSCollector ch (w ++ [toLower c]) b acc).2 = 0
    · rw [if_pos hz]
      dsimp only
      omega
    · simp only [if_neg hz]
      have h2 := children_budget rest w (DFSCollector ch (w ++ [toLower c]) b acc).2
        (DFSCollector ch (w ++ [toLower c]) b acc).1
      omega
end

mutual
theorem dfs_mem (n : TrieNode) (w : List Nat) (b : Nat)
    (hs : nodeSorted n = true) (hl : nodeLower n = true) :
    ∀ x ∈ (DFSCollector n w b []).1, ∃ s, x = w ++ s ∧ searchW n s = true := by
  cases n with
  | mk e cs =>
    have hcs : childSorted cs = true := hs
    have hcl : childLower cs = true := hl
    by_cases hb : b = 0
    · simp [DFSCollector, hb]
    · cases e with
      | false =>
        simp only [DFSCollector, if_neg hb, Bool.false_eq_true, if_false]
        intro x hx
        rcases children_mem cs w b hcs hcl x hx with ⟨c, s2, ch, hfind, hsearch, hx2⟩
        exact ⟨c :: s2, hx2,
          by simp [searchW, retrieveChild, TrieNode.children, hfind, hsearch]⟩
      | true =>
        simp only [DFSCollector, if_neg hb, if_true, List.nil_append]
        rw [children_append cs w (b - 1) [w]]
        intro x hx
        dsimp only at hx
        rcases List.mem_append.mp hx with hx | hx
        · rcases List.mem_singleton.mp hx with rfl
          exact ⟨[], by simp, by simp [searchW, TrieNode.isEnd]⟩
        · rcases children_mem cs w (b - 1) hcs hcl x hx with ⟨c, s2, ch, hfind, hsearch, hx2⟩
          exact ⟨c :: s2, hx2,
            by simp [searchW, retrieveChild, TrieNode.children, hfind, hsearch]⟩

theorem children_mem (cs : ChildMap) (w : List Nat) (b : Nat)
    (hs : childSorted cs = true) (hl : childLower cs = true) :
    ∀ x ∈ (dfsChildren cs w b []).1,
      ∃ c s ch, cs.find c = some ch ∧ searchW ch s = true ∧ x = w ++ c :: s := by
  cases cs with
  | nil => simp [dfsChildren]
  | cons c ch rest =>
    rcases childSorted_cons_parts c ch rest hs with ⟨hk, hsv, hsrest⟩
    rcases childLower_cons_parts c ch rest hl with ⟨hlc, hlv, hlrest⟩
    simp only [dfsChildren, hlc]
    by_cases hz : (DFSCollector ch (w ++ [c]) b []).2 = 0
    · rw [if_pos hz]
      dsimp only
      intro x hx
      rcases dfs_mem ch (w ++ [c]) b hsv hlv x hx with ⟨s, rfl, hsearch⟩
      exact ⟨c, s, ch, by simp [ChildMap.find], hsearch, by simp⟩
    · rw [if_neg hz]
      rw [children_append rest w (DFSCollector ch (w ++ [c]) b []).2
        (DFSCollector ch (w ++ [c]) b []).1]
      intro x hx
      dsimp only at hx
      rcases List.mem_append.mp hx with hx | hx
      · rcases dfs_mem ch (w ++ [c]) b hsv hlv x hx with ⟨s, rfl, hsearch⟩
        exact ⟨c, s, ch, by simp [ChildMap.find], hsearch, by simp⟩
      · rcases children_mem rest w (DFSCollector ch (w ++ [c]) b []).2 hsrest hlrest x hx with
          ⟨c2, s2, ch2, hfind2, hsearch2, hx2⟩
        refine ⟨c2, s2, ch2, ?_, hsearch2, hx2⟩
        have hc2mem : c2 ∈ keysList rest := find_mem_keys rest c2 ch2 hfind2
        have hlt : c < c2 := sorted_head_lt c ch rest hs c2 hc2mem
        have hne : ¬(c2 = c) := by omega
        simp [ChildMap.find, hne, hfind2]
end

theorem append_cons_eq (w : List Nat) (c : Nat) (u : List Nat) :
    (w ++ [c]) ++ u = w ++ c :: u := by
  simp

mutual
theorem dfs_pairwise (n : TrieNode) (w : List Nat) (b : Nat)
    (hs : nodeSorted n = true) (hl : nodeLower n = true) :
    List.Pairwise (fun x y => lexLt x y = true) (DFSCollector n w b []).1 ∧
      ∀ x ∈ (DFSCollector n w b []).1, w <+: x := by
  cases n with
  | mk e cs =>
    have hcs : childSorted cs = true := hs
    have hcl : childLower cs = true := hl
    by_cases hb : b = 0
    · simp [DFSCollector, hb]
    · cases e with
      | false =>
        simp only [DFSCollector, if_neg hb, Bool.false_eq_true, if_false]
        rcases children_pairwise cs w b hcs hcl with ⟨hpw, hpre⟩
        refine ⟨hpw, fun x hx => ?_⟩
        rcases hpre x hx with ⟨c, _, hp⟩
        exact (List.prefix_append w [c]).trans hp
      | true =>
        simp only [DFSCollector, if_neg hb, if_true, List.nil_append]
        rw [children_append cs w (b - 1) [w]]
        dsimp only
        rcases children_pairwise cs w (b - 1) hcs hcl with ⟨hpw, hpre⟩
        constructor
        · rw [List.pairwise_append]
          refine ⟨List.pairwise_singleton _ _, hpw, ?_⟩
          intro x hx y hy
          rcases List.mem_singleton.mp hx with rfl
          rcases hpre y hy with ⟨c, _, hp⟩
          rcases hp with ⟨u, rfl⟩
          rw [append_cons_eq]
          exact lexLt_self_append_cons x c u
        · intro x hx
          rcases List.mem_append.mp hx with hx | hx
          · rcases List.mem_singleton.mp hx with rfl
            exact List.prefix_refl x
          · rcases hpre x hx with ⟨c, _, hp⟩
            exact (List.prefix_append w [c]).trans hp

theorem children_pairwise (cs : ChildMap) (w : List Nat) (b : Nat)
    (hs : childSorted cs = true) (hl : childLower cs = true) :
    List.Pairwise (fun x y => lexLt x y = true) (dfsChildren cs w b []).1 ∧
      ∀ x ∈ (dfsChildren cs w b []).1, ∃ c, c ∈ keysList cs ∧ (w ++ [c]) <+: x := by
  cases cs with
  | nil => simp [dfsChildren]
  | cons c ch rest =>
    rcases childSorted_cons_parts c ch rest hs with ⟨hk, hsv, hsrest⟩
    rcases childLower_cons_parts c ch rest hl with ⟨hlc, hlv, hlrest⟩
    simp only [dfsChildren, hlc]
    rcases dfs_pairwise ch (w ++ [c]) b hsv hlv with ⟨hpw1, hpre1⟩
    by_cases hz : (DFSCollector ch (w ++ [c]) b []).2 = 0
    · rw [if_pos hz]
      dsimp only
      refine ⟨hpw1, fun x hx => ⟨c, by simp [keysList], hpre1 x hx⟩⟩
    · rw [if_neg hz]
      rw [children_append rest w (DFSCollector ch (w ++ [c]) b []).2
        (DFSCollector ch (w ++ [c]) b []).1]
      dsimp only
      rcases children_pairwise rest w (DFSCollector ch (w ++ [c]) b []).2 hsrest hlrest with
        ⟨hpw2, hpre2⟩
      constructor
      · rw [List.pairwise_append]
        refine ⟨hpw1, hpw2, ?_⟩
        intro x hx y hy
        rcases hpre1 x hx with ⟨u, rfl⟩
        rcases hpre2 y hy with ⟨c2, hc2, hp2⟩
        rcases hp2 with ⟨v, rfl⟩
        have hlt : c < c2 := sorted_head_lt c ch rest hs c2 hc2
        rw [append_cons_eq, append_cons_eq]
        exact lexLt_append_cons_lt hlt w u v
      · intro x hx
        rcases List.mem_append.mp hx with hx | hx
        · exact ⟨c, by simp [keysList], hpre1 x hx⟩
        · rcases hpre2 x hx with ⟨c2, hc2, hp2⟩
          exact ⟨c2, by simp [keysList, hc2], hp2⟩
end

theorem dfs_head (n : TrieNode) (w : List Nat) (b : Nat)
    (hb : b ≠ 0) (he : n.isEnd = true) :
    (DFSCollector n w b []).1.head? = some w := by
  cases n with
  | mk e cs =>
    have he2 : e = true := he
    subst he2
    simp only [DFSCollector, if_neg hb, if_true, List.nil_append]
    rw [children_append cs w (b - 1) [w]]
    simp

mutual
theorem dfs_lower (n : TrieNode) (w : List Nat) (b : Nat) (acc : List (List Nat))
    (hw : w.all (fun c => toLower c == c) = true)
    (hacc : ∀ x ∈ acc, x.all (fun c => toLower c == c) = true) :
    ∀ x ∈ (DFSCollector n w b acc).1, x.all (fun c => toLower c == c) = true := by
  cases n with
  | mk e cs =>
    by_cases hb : b = 0
    · simpa [DFSCollector, hb] using hacc
    · cases e with
      | false =>
        simp only [DFSCollector, if_neg hb, Bool.false_eq_true, if_false]
        exact children_lower cs w b acc hw hacc
      | true =>
        simp only [DFSCollector, if_neg hb, if_true]
        refine children_lower cs w (b - 1) (acc ++ [w]) hw ?_
        intro x hx
        rcases List.mem_append.mp hx with hx | hx
        · exact hacc x hx
        · rcases List.mem_singleton.mp hx with rfl
          exact hw

theorem children_lower (cs : ChildMap) (w : List Nat) (b : Nat) (acc : List (List Nat))
    (hw : w.all (fun c => toLower c == c) = true)
    (hacc : ∀ x ∈ acc, x.all (fun c => toLower c == c) = true) :
    ∀ x ∈ (dfsChildren cs w b acc).1, x.all (fun c => toLower c == c) = true := by
  cases cs with
  | nil => simpa [dfsChildren] using hacc
  | cons c ch rest =>
    simp only [dfsChildren]
    have hw2 : (w ++ [toLower c]).all (fun c => toLower c == c) = true := by
      rw [List.all_append]
      simp only [Bool.and_eq_true]
      exact ⟨hw, by simp [toLower_idem]⟩
    have hq : ∀ x ∈ (DFSCollector ch (w ++ [toLower c]) b acc).1,
        x.all (fun c => toLower c == c) = true :=
      dfs_lower ch (w ++ [toLower c]) b acc hw2 hacc
    by_cases hz : (DFSCollector ch (w ++ [toLower c]) b acc).2 = 0
    · rw [if_pos hz]
      exact hq
    · rw [if_neg hz]
      exact children_lower rest w (DFSCollector ch (w ++ [toLower c]) b acc).2
        (DFSCollector ch (w ++ [toLower c]) b acc).1 hw hq
end

/-! ### Descent lemmas -/

theorem descend_search (p : List Nat) : ∀ (root nd : TrieNode) (s : List Nat),
    descend root p = some nd → searchW nd s = true → searchW root (p ++ s) = true := by
  induction p with
  | nil =>
    intro root nd s hd hs
    simp only [descend, Option.some.injEq] at hd
    subst hd
    simpa using hs
  | cons c p ih =>
    intro root nd s hd hs
    simp only [descend] at hd
    cases hret : retrieveChild root c with
    | none => rw [hret] at hd; simp at hd
    | some ch =>
      rw [hret] at hd
      simp only [List.cons_append, searchW, hret]
      exact ih ch nd s hd hs

theorem descend_sorted (p : List Nat) : ∀ (root nd : TrieNode),
    nodeSorted root = true → descend root p = some nd → nodeSorted nd = true := by
  induction p with
  | nil =>
    intro root nd hs hd
    simp only [descend, Option.some.injEq] at hd
    subst hd
    exact hs
  | cons c p ih =>
    intro root nd hs hd
    simp only [descend] at hd
    cases hret : retrieveChild root c with
    | none => rw [hret] at hd; simp at hd
    | some ch =>
      rw [hret] at hd
      cases root with
      | mk e cs =>
        have hch : nodeSorted ch = true :=
          find_sorted cs c ch hs (by simpa [retrieveChild, TrieNode.children] using hret)
        exact ih ch nd hch hd

theorem descend_lower_node (p : List Nat) : ∀ (root nd : TrieNode),
    nodeLower root = true → descend root p = some nd → nodeLower nd = true := by
  induction p with
  | nil =>
    intro root nd hl hd
    simp only [descend, Option.some.injEq] at hd
    subst hd
    exact hl
  | cons c p ih =>
    intro root nd hl hd
    simp only [descend] at hd
    cases hret : retrieveChild root c with
    | none => rw [hret] at hd; simp at hd
    | some ch =>
      rw [hret] at hd
      cases root with
      | mk e cs =>
        have hch := find_lower cs c ch hl (by simpa [retrieveChild, TrieNode.children] using hret)
        exact ih ch nd hch.2 hd

theorem descend_map_toLower (p : List Nat) : ∀ (root nd : TrieNode),
    nodeLower root = true → descend root p = some nd → p.map toLower = p := by
  induction p with
  | nil => intro root nd hl hd; rfl
  | cons c p ih =>
    intro root nd hl hd
    simp only [descend] at hd
    cases hret : retrieveChild root c with
    | none => rw [hret] at hd; simp at hd
    | some ch =>
      rw [hret] at hd
      cases root with
      | mk e cs =>
        have hch := find_lower cs c ch hl (by simpa [retrieveChild, TrieNode.children] using hret)
        simp only [List.map_cons, hch.1, List.cons.injEq, true_and]
        exact ih ch nd hch.2 hd

theorem descend_some_startsWith (p : List Nat) : ∀ (root nd : TrieNode),
    descend root p = some nd → startsWithW root p = true := by
  induction p with
  | nil => intro root nd _; rfl
  | cons c p ih =>
    intro root nd hd
    simp only [descend] at hd
    cases hret : retrieveChild root c with
    | none => rw [hret] at hd; simp at hd
    | some ch =>
      rw [hret] at hd
      simp only [startsWithW, hret]
      exact ih ch nd hd

theorem search_descend (p : List Nat) : ∀ (root : TrieNode), searchW root p = true →
    ∃ nd, descend root p = some nd ∧ nd.isEnd = true := by
  induction p with
  | nil =>
    intro root hs
    exact ⟨root, rfl, hs⟩
  | cons c p ih =>
    intro root hs
    simp only [searchW] at hs
    cases hret : retrieveChild root c with
    | none => rw [hret] at hs; simp at hs
    | some ch =>
      rw [hret] at hs
      rcases ih ch hs with ⟨nd, hd, he⟩
      exact ⟨nd, by simp [descend, hret, hd], he⟩

/-! ### Tokenizer lemmas -/

theorem loaderScan_word (w : List Nat) : ∀ (l acc : List Nat),
    w.all (fun c => isAlpha c && (toLower c == c)) = true →
    loaderScan (w ++ l) acc = loaderScan l (acc ++ w) := by
  induction w with
  | nil => intro l acc _; simp
  | cons c w ih =>
    intro l acc hall
    simp only [List.all_cons, Bool.and_eq_true, beq_iff_eq] at hall
    rcases hall with ⟨⟨ha, hlc⟩, hrest⟩
    simp only [List.cons_append, loaderScan, ha, if_pos, hlc]
    simp only [List.append_eq]
    rw [ih l (acc ++ [c]) (by simpa [List.all_eq_true] using hrest), append_cons_eq]

theorem loader_roundtrip (ws : List (List Nat))
    (h : ∀ w ∈ ws, validWord w = true) :
    loaderScan (serializeVocab ws) [] = ws := by
  induction ws with
  | nil => simp [serializeVocab, loaderScan]
  | cons w rest ih =>
    have hw : validWord w = true := h w (List.mem_cons_self w rest)
    have hrest : ∀ v ∈ rest, validWord v = true := fun v hv => h v (List.mem_cons_of_mem w hv)
    simp only [validWord, Bool.and_eq_true, decide_eq_true_eq] at hw
    rcases hw with ⟨hlen, hall⟩
    simp only [serializeVocab]
    rw [show w ++ 32 :: serializeVocab rest = w ++ (32 :: serializeVocab rest) from rfl,
      loaderScan_word w (32 :: serializeVocab rest) [] hall]
    simp only [List.nil_append, loaderScan]
    have h32 : isAlpha 32 = false := rfl
    rw [h32]
    simp only [Bool.false_eq_true, if_false, if_pos hlen]
    rw [ih hrest]

theorem map_modifyHead_cons (c : Nat) (S : List (List Nat)) :
    (S.modifyHead (List.cons c)).map (List.map toLower) =
      (S.map (List.map toLower)).modifyHead (List.cons (toLower c)) := by
  cases S <;> simp

theorem modifyHead_nil_append (S : List (List Nat)) :
    S.modifyHead (fun r => [] ++ r) = S := by
  cases S <;> simp

theorem vocabScan_runs (l : List Nat) : ∀ (word : List Nat),
    vocabScan l word =
      (((l.splitOnP fun c => !isAlpha c).map (List.map toLower)).modifyHead
        (fun r => word ++ r)).filter (fun r => decide (5 ≤ r.length)) := by
  induction l with
  | nil =>
    intro word
    simp only [List.splitOnP_nil, List.map_cons, List.map_nil, List.modifyHead_cons,
      List.append_nil, List.filter]
    by_cases h : 5 ≤ word.length
    · simp [vocabScan, h]
    · simp [vocabScan, h]
  | cons c rest ih =>
    intro word
    by_cases ha : isAlpha c
    · have hsplit : (c :: rest).splitOnP (fun x => !isAlpha x) =
          (rest.splitOnP (fun x => !isAlpha x)).modifyHead (List.cons c) := by
        simp [List.splitOnP_cons, ha]
      have hlhs : vocabScan (c :: rest) word = vocabScan rest (word ++ [toLower c]) := by
        simp [vocabScan, ha]
      rw [hlhs, hsplit, map_modifyHead_cons, List.modifyHead_modifyHead]
      have hfun : ((fun r => word ++ r) ∘ List.cons (toLower c)) =
          fun r => (word ++ [toLower c]) ++ r := by
        funext r
        simp [Function.comp, append_cons_eq]
      rw [hfun]
      exact ih (word ++ [toLower c])
    · have ha2 : isAlpha c = false := by simpa using ha
      have hsplit : (c :: rest).splitOnP (fun x => !isAlpha x) =
          [] :: rest.splitOnP (fun x => !isAlpha x) := by
        simp [List.splitOnP_cons, ha2]
      rw [hsplit]
      simp only [List.map_cons, List.map_nil, List.modifyHead_cons, List.append_nil,
        List.filter_cons]
      by_cases hlen : 5 ≤ word.length
      · have hlhs : vocabScan (c :: rest) word = word :: vocabScan rest [] := by
          simp [vocabScan, ha2, hlen]
        rw [hlhs, ih [], modifyHead_nil_append]
        simp [hlen]
      · have hlhs : vocabScan (c :: rest) word = vocabScan rest [] := by
          simp [vocabScan, ha2, hlen]
        rw [hlhs, ih [], modifyHead_nil_append]
        simp [hlen]

/-! ### Claim theorems -/

/-- C1: the spec requires the query prefix to be lowercase-normalized before
lookup, so on the trie {"apple","application","apply","banana"} the query
"APP" with budget 10 should return the same three words as "app". The code
applies `u_tolower` only to the echoed prefix copy and to the DFS output,
never to the lookup path (`startsWith` and the descent use the raw
codepoints), so the uppercase query yields the empty list while the lowercase
query yields the three completions: the claim fails on the code at the spec's
own scenario. -/
theorem C1_eval :
    collectList demoRoot appUpperW 10 = [] ∧
      collectList demoRoot appW 10 = [appleW, applicationW, applyW] := by
  constructor
  · decide
  · simp [collectList, DFSCollector, dfsChildren, demoRoot, buildTrie, emptyNode, insertW,
      appleW, applicationW, applyW, bananaW, appW, startsWithW, descend, retrieveChild,
      TrieNode.children, TrieNode.isEnd, ChildMap.insertNew, ChildMap.replace, ChildMap.find,
      toLower]

/-- The complete state behaviour of `collectSuggestionsT`: the root is
untouched, the returned number is the length of the member buffer, and the
buffer holds exactly the computed suggestion list, whatever it held before. -/
theorem collect_state_parts (t : Trie) (p : List Nat) (k : Nat) :
    (collectSuggestionsT t p k).1.root = t.root ∧
      (collectSuggestionsT t p k).2 = (collectSuggestionsT t p k).1.collectWords.length ∧
      (collectSuggestionsT t p k).1.collectWords = collectList t.root p k := by
  by_cases hg : (!startsWithW t.root p || k == 0) = true
  · simp [collectSuggestionsT, collectList, hg]
  · cases hd : descend t.root p with
    | some n => simp [collectSuggestionsT, collectList, hg, hd]
    | none => simp [collectSuggestionsT, collectList, hg, hd]

/-- C2 counterexample: `collectSuggestions` does write its results into the
`Trie`-owned member `collectWords`: calling it on a trie whose buffer is empty
returns only the count 3, and the three suggestions are found in the object's
`collectWords` field afterwards, which therefore changed across the call. -/
theorem C2_counterexample :
    (collectSuggestionsT { root := demoRoot, collectWords := [] } appW 10).1.collectWords =
        [appleW, applicationW, applyW] ∧
      (collectSuggestionsT { root := demoRoot, collectWords := [] } appW 10).2 = 3 ∧
      (collectSuggestionsT { root := demoRoot, collectWords := [] } appW 10).1.collectWords ≠
        ({ root := demoRoot, collectWords := [] } : Trie).collectWords := by
  have h1 : (collectSuggestionsT { root := demoRoot, collectWords := [] } appW 10).1.collectWords =
      [appleW, applicationW, applyW] := by
    simp [collectSuggestionsT, DFSCollector, dfsChildren, demoRoot, buildTrie, emptyNode, insertW,
      appleW, applicationW, applyW, bananaW, appW, startsWithW, descend, retrieveChild,
      TrieNode.children, TrieNode.isEnd, ChildMap.insertNew, ChildMap.replace, ChildMap.find,
      toLower]
  have h2 : (collectSuggestionsT { root := demoRoot, collectWords := [] } appW 10).2 = 3 := by
    rw [(collect_state_parts { root := demoRoot, collectWords := [] } appW 10).2.1, h1]
    rfl
  refine ⟨h1, h2, ?_⟩
  rw [h1]
  simp [appleW]

/-- C2 amended: `collectSuggestions` returns only the number of collected
suggestions; the suggestions themselves are deposited in the `Trie` member
field `collectWords`, which is cleared and overwritten on every call (the
result is a function of the root and the arguments only, independent of the
buffer's previous contents), while the tree itself is left unchanged. -/
theorem C2_amended (t : Trie) (p : List Nat) (k : Nat) :
    (collectSuggestionsT t p k).1.root = t.root ∧
      (collectSuggestionsT t p k).2 = (collectSuggestionsT t p k).1.collectWords.length ∧
      (collectSuggestionsT t p k).1.collectWords = collectList t.root p k :=
  collect_state_parts t p k

/-- C3 counterexample: on the trie {"xB","xa"} (uppercase word inserted
directly, bypassing the tokenizer) the children 66 ('B') and 97 ('a') of the
node under 120 ('x') are visited in ascending key order, but the collected
suffixes are their lowercase folds 98 then 97, which is not ascending: the
ordering part of the claim fails for this trie and the prefix "x". -/
theorem C3_counterexample :
    collectList trieXC [120] 10 = [[120, 98], [120, 97]] ∧
      ¬ List.Pairwise (fun a b => lexLt a b = true)
        ((collectList trieXC [120] 10).map (fun w => w.drop 1)) := by
  constructor
  · decide
  · decide

/-- C3 amended: for every trie satisfying the `std::map` sorted-key
representation invariant whose stored codepoints are all lowercase (the shape
produced by inserting lowercase Words), the result sequence of
`collectSuggestions(p, k)` begins with the exact match `p` itself whenever `p`
is a complete stored word (and the budget is nonzero), and the completing
suffixes of the results are in strictly ascending lexicographic codepoint
order. -/
theorem C3_amended (root : TrieNode) (p : List Nat) (k : Nat)
    (hs : nodeSorted root = true) (hl : nodeLower root = true) :
    (searchW root p = true → k ≠ 0 → (collectList root p k).head? = some p) ∧
      List.Pairwise (fun a b => lexLt a b = true)
        ((collectList root p k).map (fun w => w.drop p.length)) := by
  unfold collectList
  by_cases hg : (!startsWithW root p || k == 0) = true
  · simp only [hg, if_true, if_pos]
    refine ⟨?_, by simp⟩
    intro hsearch hk
    exfalso
    rcases search_descend p root hsearch with ⟨nd, hd, _⟩
    have hsw := descend_some_startsWith p root nd hd
    simp only [hsw, Bool.not_true, Bool.false_or, beq_iff_eq] at hg
    exact hk hg
  · have hg2 : startsWithW root p = true ∧ k ≠ 0 := by
      constructor
      · cases hcase : startsWithW root p with
        | true => rfl
        | false => exact absurd (by simp [hcase]) hg
      · intro hk
        exact hg (by simp [hk])
    simp only [hg, Bool.false_eq_true, if_false]
    cases hd : descend root p with
    | none =>
      refine ⟨?_, by simp⟩
      intro hsearch hk
      rcases search_descend p root hsearch with ⟨nd, hd2, _⟩
      rw [hd] at hd2
      exact absurd hd2 (by simp)
    | some nd =>
      have hsn : nodeSorted nd = true := descend_sorted p root nd hs hd
      have hln : nodeLower nd = true := descend_lower_node p root nd hl hd
      have hmap : p.map toLower = p := descend_map_toLower p root nd hl hd
      rw [hmap]
      constructor
      · intro hsearch hk
        rcases search_descend p root hsearch with ⟨nd2, hd2, he2⟩
        rw [hd] at hd2
        have hnd : nd2 = nd := by simpa using hd2.symm
        rw [hnd] at he2
        exact dfs_head nd p k hg2.2 he2
      · rcases dfs_pairwise nd p k hsn hln with ⟨hpw, hpre⟩
        rw [List.pairwise_map]
        refine hpw.imp_of_mem ?_
        intro a b ha hb hab
        rcases hpre a ha with ⟨u, rfl⟩
        rcases hpre b hb with ⟨v, rfl⟩
        rw [List.drop_left, List.drop_left]
        rwa [lexLt_append_same] at hab

/-- C3 witness: on the lowercase trie {"app","apple","apply"} with prefix
"app" and budget 10, the hypotheses of the amended theorem hold and the
conclusion is obtained from it. -/
theorem C3_witness :
    (collectList trieApp appW 10).head? = some appW ∧
      List.Pairwise (fun a b => lexLt a b = true)
        ((collectList trieApp appW 10).map (fun w => w.drop appW.length)) := by
  have h := C3_amended trieApp appW 10 (by decide) (by decide)
  exact ⟨h.1 (by decide) (by decide), h.2⟩

/-- C4 counterexample: on the trie holding only the directly-inserted word
"AB" (codepoints 65, 66), `collectSuggestions("A", 10)` returns the folded
entry "ab", which neither starts with the query prefix "A" nor satisfies
`search`: the claim is false for this trie. -/
theorem C4_counterexample :
    collectList trieAB [65] 10 = [[97, 98]] ∧
      ¬ ([65].isPrefixOf [97, 98] = true ∧ searchW trieAB [97, 98] = true) := by
  constructor
  · decide
  · decide

/-- C4 amended: for every trie satisfying the `std::map` sorted-key
representation invariant whose stored codepoints are all lowercase,
`collectSuggestions(p, k)` returns at most k entries, and every returned
entry starts with p and satisfies `search(entry) = true` on that trie. -/
theorem C4_amended (root : TrieNode) (p : List Nat) (k : Nat)
    (hs : nodeSorted root = true) (hl : nodeLower root = true) :
    (collectList root p k).length ≤ k ∧
      ∀ w ∈ collectList root p k, p.isPrefixOf w = true ∧ searchW root w = true := by
  by_cases hg : (!startsWithW root p || k == 0) = true
  · simp [collectList, hg]
  · cases hd : descend root p with
    | none => simp [collectList, hg, hd]
    | some nd =>
      have hsn : nodeSorted nd = true := descend_sorted p root nd hs hd
      have hln : nodeLower nd = true := descend_lower_node p root nd hl hd
      have hmap : p.map toLower = p := descend_map_toLower p root nd hl hd
      have hcl : collectList root p k = (DFSCollector nd p k []).1 := by
        simp [collectList, hg, hd, hmap]
      rw [hcl]
      constructor
      · have hb := dfs_budget nd p k []
        simp only [List.length_nil] at hb
        omega
      · intro w hw
        rcases dfs_mem nd p k hsn hln w hw with ⟨s, rfl, hsearch⟩
        exact ⟨isPrefixOf_self_append p s, descend_search p root nd s hd hsearch⟩

/-- C4 witness: the hypotheses of the amended theorem hold for the demo trie
{"apple","application","apply","banana"}, and the conclusion is obtained from
it at prefix "app" with budget 10. -/
theorem C4_witness :
    nodeSorted demoRoot = true ∧ nodeLower demoRoot = true ∧
      ((collectList demoRoot appW 10).length ≤ 10 ∧
        ∀ w ∈ collectList demoRoot appW 10,
          appW.isPrefixOf w = true ∧ searchW demoRoot w = true) :=
  ⟨by decide, by decide, C4_amended demoRoot appW 10 (by decide) (by decide)⟩

/-- C5: for every finite sequence of insertions starting from the fresh root,
`search(w)` is true exactly for the inserted words: true for every word that
was inserted, false for every word never inserted (in particular for every
proper prefix of an inserted word that was not itself inserted). -/
theorem C5_search_iff (ws : List (List Nat)) (w : List Nat) :
    searchW (buildTrie ws) w = true ↔ w ∈ ws := by
  have h := search_foldl ws emptyNode w (by rfl)
  rw [buildTrie]
  rw [h]
  have he : searchW emptyNode w = false := searchW_empty w
  simp [he]

/-- C6: serializing a vocabulary set of valid Words (lowercase alphabetic,
length at least the threshold 5) as the space-joined string of
`vocabularyDatabase` and re-tokenizing it with the startup loader of
`loadVocabularyIntoTrie` reproduces exactly the original sequence of Words:
nothing is lost, altered or added by the round trip. -/
theorem C6_roundtrip (ws : List (List Nat)) (h : ∀ w ∈ ws, validWord w = true) :
    loaderScan (serializeVocab ws) [] = ws :=
  loader_roundtrip ws h

/-- C6 witness: the round trip at the concrete vocabulary
{"apple","banana"}. -/
theorem C6_witness :
    (∀ w ∈ [appleW, bananaW], validWord w = true) ∧
      loaderScan (serializeVocab [appleW, bananaW]) [] = [appleW, bananaW] :=
  ⟨by decide, C6_roundtrip [appleW, bananaW] (by decide)⟩

/-- C7: the indexer tokenizer emits exactly the maximal runs of alphabetic
codepoints, lowercase-folded, of length at least 5, in order of appearance
(stated via `splitOnP` on the non-alphabetic codepoints), and on the spec's
concrete scenario "The quick-brown Fox123 jumps!!" it yields exactly
["quick","brown","jumps"]. -/
theorem C7_tokenizer :
    (∀ l : List Nat, vocabScan l [] =
        ((l.splitOnP fun c => !isAlpha c).map (List.map toLower)).filter
          (fun r => decide (5 ≤ r.length))) ∧
      vocabScan exampleText [] = [quickW, brownW, jumpsW] := by
  constructor
  · intro l
    rw [vocabScan_runs l [], modifyHead_nil_append]
  · decide

/-- C8 counterexample: a negative suggestion-count limit does not produce an
empty result: the C++ `size_t` conversion turns -1 into 2^64 - 1, and on the
trie {"AB"} the call with limit -1 returns one suggestion, not zero. -/
theorem C8_counterexample :
    collectListInt trieAB [] (-1) = [[97, 98]] ∧ collectListInt trieAB [] (-1) ≠ [] := by
  constructor
  · decide
  · decide

/-- C8 amended: a zero limit returns the empty result (with the member buffer
cleared), not an error; a negative limit is not representable by the `size_t`
parameter: the C++ conversion maps a negative `i` (within the 64-bit range)
to the huge unsigned value 2^64 + i, and the call behaves exactly as with
that large positive budget. -/
theorem C8_amended :
    (∀ (t : Trie) (p : List Nat),
        collectSuggestionsT t p 0 = ({ root := t.root, collectWords := [] }, 0)) ∧
      ∀ (root : TrieNode) (p : List Nat) (i : Int), -(2 ^ 64) ≤ i → i < 0 →
        collectListInt root p i = collectList root p (2 ^ 64 + i).toNat := by
  constructor
  · intro t p
    simp [collectSuggestionsT]
  · intro root p i h1 h2
    unfold collectListInt intToSizeT
    congr 1
    have h64 : (2 : Int) ^ 64 = 18446744073709551616 := by norm_num
    rw [h64] at h1 ⊢
    have hmod : i.emod 18446744073709551616 = 18446744073709551616 + i := by
      have ha : (i + 18446744073709551616 * 1) % 18446744073709551616 =
          i % 18446744073709551616 := Int.add_mul_emod_self_left i 18446744073709551616 1
      have hb : i + 18446744073709551616 * 1 = 18446744073709551616 + i := by ring
      have hc : (18446744073709551616 + i) % 18446744073709551616 = 18446744073709551616 + i :=
        Int.emod_eq_of_lt (by omega) (by omega)
      rw [hb, hc] at ha
      exact ha.symm
    rw [hmod]

/-- C8 witness: the amended theorem applied at limit -1 on the trie {"AB"}. -/
theorem C8_witness :
    (-(2 ^ 64) : Int) ≤ -1 ∧ (-1 : Int) < 0 ∧
      collectListInt trieAB [] (-1) = collectList trieAB [] ((2 : Int) ^ 64 + -1).toNat :=
  ⟨by decide, by decide, C8_amended.2 trieAB [] (-1) (by decide) (by decide)⟩

/-- C9: the threshold value 5 is the same on both paths, but the two
extraction loops are not equivalent: on the input "abc defgh" the indexer
tokenizer (which clears its accumulator at every non-alphabetic codepoint)
extracts {"defgh"}, while the startup loader (which lacks the clear when the
pending run is short) extracts {"abcdefgh"}: the claimed equality of the
extracted word sets fails. -/
theorem C9_eval :
    vocabScan abcSpaceText [] = [defghW] ∧
      loaderScan abcSpaceText [] = [abcdefghW] ∧
      vocabScan abcSpaceText [] ≠ loaderScan abcSpaceText [] := by
  refine ⟨by decide, by decide, by decide⟩

/-- C10: every codepoint of every string returned by `collectSuggestions` is
a fixed point of the lowercase fold, for every trie (including tries holding
directly-inserted uppercase words) and every query: both the echoed prefix
and every collected suffix codepoint pass through `u_tolower` before being
appended to a result. -/
theorem C10_all_lower (root : TrieNode) (p : List Nat) (k : Nat) (w : List Nat)
    (hw : w ∈ collectList root p k) : w.all (fun c => toLower c == c) = true := by
  unfold collectList at hw
  by_cases hg : (!startsWithW root p || k == 0) = true
  · rw [if_pos hg] at hw
    simp at hw
  · rw [if_neg hg] at hw
    cases hd : descend root p with
    | none =>
      rw [hd] at hw
      simp at hw
    | some nd =>
      rw [hd] at hw
      have hlowp : (p.map toLower).all (fun c => toLower c == c) = true := by
        rw [List.all_map]
        rw [List.all_eq_true]
        intro c _
        simp [Function.comp, toLower_idem]
      exact dfs_lower nd (p.map toLower) k [] hlowp (by simp) w hw

/-- C10 witness: on the trie {"AB"} with query "A", the returned entry "ab"
is fully lowercase although the stored word is uppercase. -/
theorem C10_witness :
    [97, 98] ∈ collectList trieAB [65] 10 ∧
      ([97, 98].all fun c => toLower c == c) = true :=
  ⟨by decide, C10_all_lower trieAB [65] 10 [97, 98] (by decide)⟩
